import Mathlib

/-!
Verification development for the Olympic relational-graph visualization
(graph model builder in `App.tsx`, filter pipeline / degree-based radii /
drag interaction in the `MedalGraph` component, energy schedule of the
force simulation the component configures).

JavaScript strings are modelled as `List Char`; JavaScript integer-valued
numbers as `Nat`; coordinates, radii and the simulation's alpha as `ℚ`.
-/

/-- JavaScript strings, modelled as lists of characters. -/
abbrev Str := List Char

/-- A string that does not contain the `'|'` delimiter character. -/
def barFree (s : Str) : Prop := '|' ∉ s

instance (s : Str) : Decidable (barFree s) := by
  unfold barFree; infer_instance

/-- `String.prototype.split("|")`: cuts a string at every `'|'`.
`splitOnBar [] = [[]]`, matching JS `"".split("|") = [""]`. -/
def splitOnBar : Str → List Str
  | [] => [[]]
  | c :: cs =>
    if c = '|' then [] :: splitOnBar cs
    else
      match splitOnBar cs with
      | [] => [[c]]
      | w :: ws => (c :: w) :: ws

/-- `Array.prototype.join(", ")` over a list of strings. -/
def joinComma : List Str → Str
  | [] => []
  | [s] => s
  | s :: t :: rest => s ++ [',', ' '] ++ joinComma (t :: rest)

/-- `Array.from(new Set(xs))`: deduplication keeping the first
occurrence of each element, in first-appearance order; `seen` is the set
of elements already emitted. -/
def uniqFirstAux (seen : List Str) : List Str → List Str
  | [] => []
  | x :: xs => if x ∈ seen then uniqFirstAux seen xs else x :: uniqFirstAux (x :: seen) xs

/-- `Array.from(new Set(xs))`. -/
def uniqFirst (l : List Str) : List Str := uniqFirstAux [] l

/-- The `clamp(n, lo, hi) = Math.max(lo, Math.min(hi, n))` helper of
`MedalGraph`, at rational type (used for radii). -/
def clamp (n lo hi : ℚ) : ℚ := max lo (min hi n)

/-- The same `clamp` helper applied to integer-valued numbers
(used to re-clamp the `minCount` slider). -/
def clampNat (n lo hi : ℕ) : ℕ := max lo (min hi n)

/-- One row of `medals.csv` as parsed in `App.tsx` (only the fields the
graph builder reads). -/
structure Medal where
  medal_type : Str
  name : Str
  discipline : Str
  event : Str
  country : Str
deriving DecidableEq, Repr

/-- Node category: the `type: "country" | "discipline"` tag. -/
inductive NodeType where
  | country
  | discipline
deriving DecidableEq, Repr

/-- `GraphNode` of `MedalGraph.tsx`. -/
structure GraphNode where
  id : Str
  ty : NodeType
deriving DecidableEq, Repr

/-- `GraphLink` of `MedalGraph.tsx`; `count` is optional there
(`count?: number`), hence `Option ℕ`. -/
structure GraphLink where
  source : Str
  target : Str
  medal : Str
  athlete : Str
  event : Str
  count : Option ℕ
deriving DecidableEq, Repr

/-- The `{ nodes, links }` pair `App.tsx` stores in state and passes to
`MedalGraph`. -/
structure GraphData where
  nodes : List GraphNode
  links : List GraphLink
deriving DecidableEq, Repr

/-- The accumulated value of one `linkMap` entry in `App.tsx`:
`{ count, athlete: string[], event: string[], medal }`. -/
structure LinkVal where
  count : ℕ
  athlete : List Str
  event : List Str
  medal : Str
deriving DecidableEq, Repr

/-- The `linkMap` key: `` `${m.country}|${m.discipline}|${m.medal_type}` ``. -/
def recKey (m : Medal) : Str :=
  m.country ++ '|' :: m.discipline ++ '|' :: m.medal_type

/-- First record of a group: `{ count: 1, athlete: [m.name], event: [m.event], medal: m.medal_type }`. -/
def initVal (m : Medal) : LinkVal :=
  { count := 1, athlete := [m.name], event := [m.event], medal := m.medal_type }

/-- Later record of a group: `count += 1; athlete.push(m.name); event.push(m.event)`. -/
def bumpVal (v : LinkVal) (m : Medal) : LinkVal :=
  { v with count := v.count + 1
         , athlete := v.athlete ++ [m.name]
         , event := v.event ++ [m.event] }

/-- One step of the `parsed.forEach` loop filling `linkMap`.  A plain JS
object keyed by strings containing `'|'` preserves insertion order, so it
is modelled as an association list extended at the end. -/
def linkMapInsert : List (Str × LinkVal) → Medal → List (Str × LinkVal)
  | [], m => [(recKey m, initVal m)]
  | (k, v) :: rest, m =>
    if k = recKey m then (k, bumpVal v m) :: rest
    else (k, v) :: linkMapInsert rest m

/-- The whole `linkMap` built from the parsed records, in insertion order. -/
def buildLinkMap (records : List Medal) : List (Str × LinkVal) :=
  records.foldl linkMapInsert []

/-- `Object.entries(linkMap).map(...)`: split the key back on `'|'`
(JS destructuring `[source, target, medal]` keeps the first three parts)
and join the detail lists with `", "`. -/
def mkLink (e : Str × LinkVal) : GraphLink :=
  let parts := splitOnBar e.1
  { source := parts.getD 0 []
  , target := parts.getD 1 []
  , medal := parts.getD 2 []
  , athlete := joinComma e.2.athlete
  , event := joinComma e.2.event
  , count := some e.2.count }

/-- The graph builder of `App.tsx`: distinct countries then distinct
disciplines as nodes, one link per `linkMap` entry. -/
def build (records : List Medal) : GraphData :=
  let countries := uniqFirst (records.map (fun m => m.country))
  let disciplines := uniqFirst (records.map (fun m => m.discipline))
  { nodes :=
      countries.map (fun c => { id := c, ty := NodeType.country })
        ++ disciplines.map (fun d => { id := d, ty := NodeType.discipline })
  , links := (buildLinkMap records).map mkLink }

/-- The caller's guard in `App.tsx`: the graph component is rendered only
when `graphData.nodes.length > 0`; otherwise a placeholder is shown. -/
def shouldRenderGraph (g : GraphData) : Bool := decide (0 < g.nodes.length)

/-- The `"All"` sentinel of the three `MedalGraph` dropdowns. -/
def allStr : Str := ['A', 'l', 'l']

/-- The filter controls of `MedalGraph`: country / discipline / medal
dropdowns (with `"All"` sentinel), the `minCount` slider, and the
"Hide unconnected nodes" checkbox. -/
structure FilterParams where
  selectedCountry : Str
  selectedDiscipline : Str
  selectedMedal : Str
  minCount : ℕ
  showOnlyConnected : Bool
deriving DecidableEq, Repr

/-- The predicate of the `filteredLinks` memo: medal must match when a
medal is wanted, `count ?? 1` must reach `minCount`, and each wanted
country / discipline must appear at either endpoint. -/
def linkPred (p : FilterParams) (l : GraphLink) : Bool :=
  (match (if p.selectedMedal = allStr then none else some p.selectedMedal : Option Str) with
   | some m => decide (l.medal = m)
   | none => true)
  && decide (¬ (l.count.getD 1 < p.minCount))
  && (match (if p.selectedCountry = allStr then none else some p.selectedCountry : Option Str) with
      | some c => decide (l.source = c) || decide (l.target = c)
      | none => true)
  && (match (if p.selectedDiscipline = allStr then none else some p.selectedDiscipline : Option Str) with
      | some d => decide (l.source = d) || decide (l.target = d)
      | none => true)

/-- `filteredLinks`: the links surviving the filter controls. -/
def filteredLinks (links : List GraphLink) (p : FilterParams) : List GraphLink :=
  links.filter (linkPred p)

/-- Membership in the `filteredNodeIds` set: the id appears as an
endpoint of some surviving link. -/
def touched (ls : List GraphLink) (id : Str) : Bool :=
  ls.any (fun l => decide (l.source = id) || decide (l.target = id))

/-- `filteredNodes`: all nodes when "Hide unconnected nodes" is off,
otherwise only the nodes whose id is touched by a surviving link. -/
def filteredNodes (nodes : List GraphNode) (ls : List GraphLink) (onlyConnected : Bool) :
    List GraphNode :=
  if onlyConnected then nodes.filter (fun n => touched ls n.id) else nodes

/-- The whole filter pipeline of `MedalGraph`, as the pure function
(graph, params) ↦ visible subgraph. -/
def filterGraph (g : GraphData) (p : FilterParams) : GraphData :=
  let ls := filteredLinks g.links p
  { nodes := filteredNodes g.nodes ls p.showOnlyConnected, links := ls }

/-- `degree[id] = (degree[id] || 0) + 1`: bump one entry of the degree
record (JS objects preserve insertion order; new keys go to the end). -/
def bumpDeg : List (Str × ℕ) → Str → List (Str × ℕ)
  | [], id => [(id, 1)]
  | (k, n) :: rest, id =>
    if k = id then (k, n + 1) :: rest else (k, n) :: bumpDeg rest id

/-- The `degree` record of `MedalGraph`: each visible link bumps its
source's and its target's entry. -/
def degreeMap (ls : List GraphLink) : List (Str × ℕ) :=
  ls.foldl (fun d l => bumpDeg (bumpDeg d l.source) l.target) []

/-- `degree[id] || 0`. -/
def degLookup (d : List (Str × ℕ)) (id : Str) : ℕ :=
  ((d.find? (fun e => decide (e.1 = id))).map (fun e => e.2)).getD 0

/-- `rCountry(id) = clamp(10 + (degree[id] || 0) * 0.8, 12, 24)`. -/
def rCountry (ls : List GraphLink) (id : Str) : ℚ :=
  clamp (10 + (degLookup (degreeMap ls) id : ℚ) * (4 / 5)) 12 24

/-- `rDiscipline(id) = clamp(7 + (degree[id] || 0) * 0.6, 9, 18)`. -/
def rDiscipline (ls : List GraphLink) (id : Str) : ℚ :=
  clamp (7 + (degLookup (degreeMap ls) id : ℚ) * (3 / 5)) 9 18

/-- The radius handed to `d3.forceCollide`: the per-category node radius
plus the fixed padding 4. -/
def collideRadius (ls : List GraphLink) (n : GraphNode) : ℚ :=
  (match n.ty with
   | NodeType.country => rCountry ls n.id
   | NodeType.discipline => rDiscipline ls n.id) + 4

/-- A node's degree in a link list, counted the way the `degree` record
counts it: once per incident endpoint. -/
def visDegree (ls : List GraphLink) (id : Str) : ℕ :=
  (ls.filter (fun l => decide (l.source = id))).length
    + (ls.filter (fun l => decide (l.target = id))).length

/-- `Math.max(1, ...links.map(l => l.count ?? 1))`. -/
def maxLinkCount (links : List GraphLink) : ℕ :=
  links.foldl (fun m l => max m (l.count.getD 1)) 1

/-- The `useEffect` that runs on every change of `links`:
`setMinCount(c => clamp(c, 1, maxC))`. -/
def reclampMinCount (links : List GraphLink) (c : ℕ) : ℕ :=
  clampNat c 1 (maxLinkCount links)

/-- Mutable simulation state of one node in the d3-force simulation the
component constructs: position, velocity, and the optional fixed
position `fx`/`fy` (the pin). -/
structure SimNodeM where
  x : ℚ
  y : ℚ
  vx : ℚ
  vy : ℚ
  fx : Option ℚ
  fy : Option ℚ
deriving DecidableEq, Repr

/-- Simulation state: the scalar energy `alpha`, its target, and the
node array. -/
structure SimStateM where
  alpha : ℚ
  alphaTarget : ℚ
  nodes : List SimNodeM
deriving DecidableEq, Repr

/-- Per-node integration step of the d3-force tick: forces may have
rewritten position and velocity (`upd`), but never the pin, which is
taken from the pre-force node; a node with a fixed coordinate is then
held exactly there with zero velocity, while a free node integrates its
velocity under the fixed damping factor. -/
def integrateNode (vdecay : ℚ) (orig upd : SimNodeM) : SimNodeM :=
  let n1 : SimNodeM := { upd with fx := orig.fx, fy := orig.fy }
  let n2 : SimNodeM :=
    match n1.fx with
    | some px => { n1 with x := px, vx := 0 }
    | none => { n1 with x := n1.x + n1.vx * vdecay, vx := n1.vx * vdecay }
  match n2.fy with
  | some py => { n2 with y := py, vy := 0 }
  | none => { n2 with y := n2.y + n2.vy * vdecay, vy := n2.vy * vdecay }

/-- One tick of the d3-force simulation configured by `MedalGraph`:
`alpha += (alphaTarget - alpha) * alphaDecay`, then the combined force
pass (abstracted as `force`, which sees the current alpha), then per-node
integration with the fixed-position override. -/
def tick (adecay vdecay : ℚ) (force : ℚ → List SimNodeM → List SimNodeM)
    (s : SimStateM) : SimStateM :=
  let a := s.alpha + (s.alphaTarget - s.alpha) * adecay
  { alpha := a
  , alphaTarget := s.alphaTarget
  , nodes := List.zipWith (integrateNode vdecay) s.nodes (force a s.nodes) }

/-- `n` consecutive ticks. -/
def tickN (adecay vdecay : ℚ) (force : ℚ → List SimNodeM → List SimNodeM) :
    ℕ → SimStateM → SimStateM
  | 0, s => s
  | n + 1, s => tickN adecay vdecay force n (tick adecay vdecay force s)

/-- Update the element at one index of a list, if present. -/
def updateAt : List α → ℕ → (α → α) → List α
  | [], _, _ => []
  | a :: rest, 0, f => f a :: rest
  | a :: rest, n + 1, f => a :: updateAt rest n f

/-- The drag `start` handler: when no other gesture is active,
`simulation.alphaTarget(0.2).restart()` (raising the energy target, not
the energy), then `d.fx = d.x ?? 0; d.fy = d.y ?? 0` pins the node at its
current position. -/
def onDragStart (active : Bool) (i : ℕ) (s : SimStateM) : SimStateM :=
  let s1 := if active then s else { s with alphaTarget := 1 / 5 }
  { s1 with nodes := updateAt s1.nodes i (fun d => { d with fx := some d.x, fy := some d.y }) }

/-- The drag `drag` handler: `d.fx = event.x; d.fy = event.y`. -/
def onDragMove (i : ℕ) (px py : ℚ) (s : SimStateM) : SimStateM :=
  { s with nodes := updateAt s.nodes i (fun d => { d with fx := some px, fy := some py }) }

/-- The drag `end` handler: when no other gesture remains active,
`simulation.alphaTarget(0)` (energy itself is untouched), then
`d.fx = null; d.fy = null` clears the pin. -/
def onDragEnd (active : Bool) (i : ℕ) (s : SimStateM) : SimStateM :=
  let s1 := if active then s else { s with alphaTarget := 0 }
  { s1 with nodes := updateAt s1.nodes i (fun d => { d with fx := none, fy := none }) }

/-! ## Claim-side definitions and concrete inputs for counterexamples and witnesses -/

/-- A concrete country node, graph and parameter set used as explicit
inputs in counterexamples and witnesses. -/
def cNodeX : GraphNode := { id := ['X'], ty := NodeType.country }

def cGraphX : GraphData := { nodes := [cNodeX], links := [] }

def cParamsAll : FilterParams :=
  { selectedCountry := allStr, selectedDiscipline := allStr,
    selectedMedal := allStr, minCount := 1, showOnlyConnected := false }

def cNodeA : GraphNode := { id := ['a'], ty := NodeType.country }

def cLinkAB : GraphLink :=
  { source := ['a'], target := ['b'], medal := ['G'],
    athlete := [], event := [], count := some 1 }

def cGraphAB : GraphData :=
  { nodes := [cNodeA, { id := ['b'], ty := NodeType.discipline }], links := [cLinkAB] }

def cParamsConn : FilterParams :=
  { selectedCountry := allStr, selectedDiscipline := allStr,
    selectedMedal := allStr, minCount := 1, showOnlyConnected := true }

def cPinNode : SimNodeM := { x := 5, y := 7, vx := 1, vy := 2, fx := some 5, fy := some 7 }

def cPinState : SimStateM := { alpha := 1, alphaTarget := 0, nodes := [cPinNode] }

def cSimS : SimStateM := { alpha := 1, alphaTarget := 0, nodes := [] }

def cSameIdMedal : Medal :=
  { medal_type := ['G'], name := ['n'], discipline := ['X'], event := ['e'], country := ['X'] }

def cCleanMedal : Medal :=
  { medal_type := ['G'], name := ['n'], discipline := ['D'], event := ['e'], country := ['C'] }

/-- `linkMap[key]` lookup. -/
def lmLookup (map : List (Str × LinkVal)) (k : Str) : Option LinkVal :=
  (map.find? (fun e => decide (e.1 = k))).map (fun e => e.2)

/-- The effect of one record on its group's accumulated value: create
the entry on first sight, otherwise bump it. -/
def absorb : Option LinkVal → Medal → Option LinkVal
  | none, m => some (initVal m)
  | some v, m => some (bumpVal v m)

/-- The links of a graph carrying a given (source, target, medal)
triple. -/
def tripleLinks (g : GraphData) (s t l : Str) : List GraphLink :=
  g.links.filter (fun e => decide (e.source = s ∧ e.target = t ∧ e.medal = l))

/-- The records carrying a given (country, discipline, medal_type)
triple. -/
def tripleRecords (records : List Medal) (s t l : Str) : List Medal :=
  records.filter (fun m => decide (m.country = s ∧ m.discipline = t ∧ m.medal_type = l))

def cBarMedal : Medal :=
  { medal_type := ['L'], name := ['n'], discipline := ['C'], event := ['e'],
    country := ['A', '|', 'B'] }

def cM1 : Medal :=
  { medal_type := ['G'], name := ['p'], discipline := ['D'], event := ['x'], country := ['C'] }

def cM2 : Medal :=
  { medal_type := ['G'], name := ['q'], discipline := ['D'], event := ['y'], country := ['C'] }

/-! ## Helper lemmas -/

theorem le_foldl_maxCount (ls : List GraphLink) (a : ℕ) :
    a ≤ ls.foldl (fun m l => max m (l.count.getD 1)) a := by
  induction ls generalizing a with
  | nil => exact le_rfl
  | cons l ls ih =>
    exact le_trans (le_max_left _ _) (ih (max a (l.count.getD 1)))

theorem filter_self_idem (f : α → Bool) (l : List α) :
    (l.filter f).filter f = l.filter f := by
  induction l with
  | nil => rfl
  | cons a l ih =>
    by_cases h : f a
    · simp [List.filter_cons, h, ih]
    · simp only [List.filter_cons, h]
      exact ih

theorem touched_iff (ls : List GraphLink) (id : Str) :
    touched ls id = true ↔ ∃ l ∈ ls, l.source = id ∨ l.target = id := by
  unfold touched
  simp [List.any_eq_true]

theorem visDegree_pos_of_touched (ls : List GraphLink) (id : Str)
    (h : touched ls id = true) : 1 ≤ visDegree ls id := by
  rcases (touched_iff ls id).mp h with ⟨l, hl, hor⟩
  unfold visDegree
  rcases hor with hs | ht
  · have : l ∈ ls.filter (fun l => decide (l.source = id)) :=
      List.mem_filter.mpr ⟨hl, by simpa using hs⟩
    have hlen : 0 < (ls.filter (fun l => decide (l.source = id))).length :=
      List.length_pos.mpr (List.ne_nil_of_mem this)
    omega
  · have : l ∈ ls.filter (fun l => decide (l.target = id)) :=
      List.mem_filter.mpr ⟨hl, by simpa using ht⟩
    have hlen : 0 < (ls.filter (fun l => decide (l.target = id))).length :=
      List.length_pos.mpr (List.ne_nil_of_mem this)
    omega

/-! ## C10: the minCount re-clamp invariant -/

/-- C10. Whenever the link set changes, the effect hook re-clamps
`minCount` into `[1, maxCount]` where `maxCount` is the maximum link
count (at least 1); the re-clamped value always satisfies
`1 ≤ minCount ≤ maxCount`, whatever value was selected before. -/
theorem reclampMinCount_invariant (links : List GraphLink) (c : ℕ) :
    1 ≤ maxLinkCount links
      ∧ 1 ≤ reclampMinCount links c
      ∧ reclampMinCount links c ≤ maxLinkCount links := by
  have hmax : 1 ≤ maxLinkCount links := le_foldl_maxCount links 1
  refine ⟨hmax, ?_, ?_⟩
  · exact le_max_left _ _
  · unfold reclampMinCount clampNat
    exact max_le hmax (min_le_left _ _)

/-! ## C6: raising minCount only shrinks the visible link set -/

theorem linkPred_mono (p1 p2 : FilterParams)
    (hc : p1.selectedCountry = p2.selectedCountry)
    (hd : p1.selectedDiscipline = p2.selectedDiscipline)
    (hm : p1.selectedMedal = p2.selectedMedal)
    (hle : p1.minCount ≤ p2.minCount) :
    ∀ l, linkPred p2 l = true → linkPred p1 l = true := by
  intro l h
  unfold linkPred at h ⊢
  rw [hc, hd, hm]
  simp only [Bool.and_eq_true, decide_eq_true_eq] at h ⊢
  exact ⟨⟨⟨h.1.1.1, by omega⟩, h.1.2⟩, h.2⟩

/-- C6. With all other controls equal, a larger `minCount` yields a
sub-sequence of the links of a smaller one: every link visible at the
higher threshold is visible at the lower one, and the visible link
count never increases. -/
theorem filteredLinks_antitone (links : List GraphLink) (p1 p2 : FilterParams)
    (hc : p1.selectedCountry = p2.selectedCountry)
    (hd : p1.selectedDiscipline = p2.selectedDiscipline)
    (hm : p1.selectedMedal = p2.selectedMedal)
    (hle : p1.minCount ≤ p2.minCount) :
    (∀ l, l ∈ filteredLinks links p2 → l ∈ filteredLinks links p1)
      ∧ (filteredLinks links p2).length ≤ (filteredLinks links p1).length := by
  have hsub : List.Sublist (filteredLinks links p2) (filteredLinks links p1) :=
    List.monotone_filter_right links (linkPred_mono p1 p2 hc hd hm hle)
  exact ⟨fun l hl => hsub.subset hl, hsub.length_le⟩

/-- Witness for C6 at a concrete graph: the single link has count 1, so
it survives threshold 1 but the link list at threshold 2 is a
sub-collection of it. -/
theorem filteredLinks_antitone_witness :
    (∀ l, l ∈ filteredLinks
        [{ source := ['a'], target := ['b'], medal := ['G'],
           athlete := [], event := [], count := some 1 }]
        { selectedCountry := allStr, selectedDiscipline := allStr,
          selectedMedal := allStr, minCount := 2, showOnlyConnected := true } →
      l ∈ filteredLinks
        [{ source := ['a'], target := ['b'], medal := ['G'],
           athlete := [], event := [], count := some 1 }]
        { selectedCountry := allStr, selectedDiscipline := allStr,
          selectedMedal := allStr, minCount := 1, showOnlyConnected := true })
      ∧ (filteredLinks
          [{ source := ['a'], target := ['b'], medal := ['G'],
             athlete := [], event := [], count := some 1 }]
          { selectedCountry := allStr, selectedDiscipline := allStr,
            selectedMedal := allStr, minCount := 2, showOnlyConnected := true }).length
        ≤ (filteredLinks
          [{ source := ['a'], target := ['b'], medal := ['G'],
             athlete := [], event := [], count := some 1 }]
          { selectedCountry := allStr, selectedDiscipline := allStr,
            selectedMedal := allStr, minCount := 1, showOnlyConnected := true }).length :=
  filteredLinks_antitone _ _ _ rfl rfl rfl (by decide)

/-! ## C5: the filter pipeline is idempotent -/

/-- C5. `filter(filter(g, p), p) = filter(g, p)`: applying the filter
pipeline to its own output with the same parameters changes nothing,
links and node list alike. -/
theorem filterGraph_idem (g : GraphData) (p : FilterParams) :
    filterGraph (filterGraph g p) p = filterGraph g p := by
  have hlinks : filteredLinks (filteredLinks g.links p) p = filteredLinks g.links p :=
    filter_self_idem _ _
  unfold filterGraph
  simp only [hlinks]
  congr 1
  unfold filteredNodes
  cases hshow : p.showOnlyConnected
  · rfl
  · simp only [if_pos]
    exact filter_self_idem _ _

/-! ## C4: hideDisconnected keeps exactly the touched nodes -/

/-- C4. With "Hide unconnected nodes" on, the visible node list contains
a node iff it is an original node touched by some visible link, and
every visible node has degree at least 1 in the visible link set; with
the checkbox off, the node list is the full original one. -/
theorem filteredNodes_touched (g : GraphData) (p : FilterParams) :
    (p.showOnlyConnected = true →
       (∀ n, n ∈ (filterGraph g p).nodes ↔
          n ∈ g.nodes ∧ ∃ l ∈ (filterGraph g p).links, l.source = n.id ∨ l.target = n.id)
       ∧ ∀ n ∈ (filterGraph g p).nodes, 1 ≤ visDegree (filterGraph g p).links n.id)
    ∧ (p.showOnlyConnected = false → (filterGraph g p).nodes = g.nodes) := by
  have hlinks : (filterGraph g p).links = filteredLinks g.links p := rfl
  constructor
  · intro hshow
    have hnodes : (filterGraph g p).nodes
        = g.nodes.filter (fun n => touched (filteredLinks g.links p) n.id) := by
      unfold filterGraph filteredNodes
      simp only [hshow, if_pos]
    constructor
    · intro n
      rw [hnodes, List.mem_filter, hlinks]
      exact and_congr_right fun _ => touched_iff _ _
    · intro n hn
      rw [hnodes] at hn
      have := (List.mem_filter.mp hn).2
      rw [hlinks]
      exact visDegree_pos_of_touched _ _ this
  · intro hshow
    unfold filterGraph filteredNodes
    simp only [hshow]
    rfl

/-! ## Degree-table lemmas for C7 -/

theorem degLookup_nil (id : Str) : degLookup [] id = 0 := by
  unfold degLookup
  simp [List.find?]

theorem degLookup_cons (k : Str) (v : ℕ) (rest : List (Str × ℕ)) (id : Str) :
    degLookup ((k, v) :: rest) id = if k = id then v else degLookup rest id := by
  unfold degLookup
  by_cases h : k = id
  · rw [List.find?_cons_of_pos _ (by simpa using h)]
    simp [h]
  · rw [List.find?_cons_of_neg _ (by simpa using h)]
    simp [h]

theorem degLookup_bumpDeg (d : List (Str × ℕ)) (k id : Str) :
    degLookup (bumpDeg d k) id = degLookup d id + (if k = id then 1 else 0) := by
  induction d with
  | nil =>
    unfold bumpDeg
    rw [degLookup_cons, degLookup_nil]
    by_cases h : k = id <;> simp [h]
  | cons e rest ih =>
    obtain ⟨k', n⟩ := e
    unfold bumpDeg
    by_cases h : k' = k
    · rw [if_pos h, degLookup_cons, degLookup_cons]
      by_cases h2 : k' = id
      · rw [if_pos h2, if_pos h2, if_pos (h ▸ h2)]
      · rw [if_neg h2, if_neg h2, if_neg (fun hk => h2 (h.trans hk))]
        omega
    · rw [if_neg h, degLookup_cons, degLookup_cons]
      by_cases h2 : k' = id
      · rw [if_pos h2, if_pos h2, if_neg (fun hk => h (h2.trans hk.symm))]
        omega
      · rw [if_neg h2, if_neg h2, ih]

theorem visDegree_nil (id : Str) : visDegree [] id = 0 := rfl

theorem visDegree_cons (l : GraphLink) (ls : List GraphLink) (id : Str) :
    visDegree (l :: ls) id
      = ((if l.source = id then 1 else 0) + (if l.target = id then 1 else 0))
        + visDegree ls id := by
  unfold visDegree
  by_cases h1 : l.source = id <;> by_cases h2 : l.target = id <;>
    simp [List.filter_cons, h1, h2] <;> omega

theorem degLookup_foldlDeg (ls : List GraphLink) (d : List (Str × ℕ)) (id : Str) :
    degLookup (ls.foldl (fun d l => bumpDeg (bumpDeg d l.source) l.target) d) id
      = degLookup d id + visDegree ls id := by
  induction ls generalizing d with
  | nil => simp [visDegree_nil]
  | cons l ls ih =>
    rw [List.foldl_cons, ih, degLookup_bumpDeg, degLookup_bumpDeg, visDegree_cons]
    omega

/-- The imperative `degree` record agrees with the declarative degree:
`degree[id] || 0` is the number of visible-link endpoints equal to `id`. -/
theorem degLookup_degreeMap (ls : List GraphLink) (id : Str) :
    degLookup (degreeMap ls) id = visDegree ls id := by
  unfold degreeMap
  rw [degLookup_foldlDeg, degLookup_nil]
  omega

/-! ## C7: per-node radius is a clamped affine function of the degree -/

/-- C7, counterexample. The radius handed to the collision force is the
clamped affine radius PLUS the fixed padding 4, so for a visible country
node of degree 0 it is 16, not `clamp(10 + 0*0.8, 12, 24) = 12`. -/
theorem collideRadius_ne_clamp_formula :
    cNodeX ∈ (filterGraph cGraphX cParamsAll).nodes
      ∧ collideRadius (filterGraph cGraphX cParamsAll).links cNodeX
          ≠ clamp (10 + (visDegree (filterGraph cGraphX cParamsAll).links cNodeX.id : ℚ)
              * (4 / 5)) 12 24 := by
  refine ⟨by decide, ?_⟩
  have hls : (filterGraph cGraphX cParamsAll).links = [] := rfl
  have hclamp : clamp 10 12 24 = 12 := by
    unfold clamp
    rw [min_eq_right (by norm_num), max_eq_left (by norm_num)]
  have h1 : collideRadius (filterGraph cGraphX cParamsAll).links cNodeX
      = rCountry [] cNodeX.id + 4 := by
    rw [hls]
    rfl
  have h2 : rCountry [] cNodeX.id = clamp 10 12 24 := by
    unfold rCountry
    rw [degLookup_degreeMap, visDegree_nil]
    norm_num
  have h3 : clamp (10 + (visDegree (filterGraph cGraphX cParamsAll).links cNodeX.id : ℚ)
      * (4 / 5)) 12 24 = clamp 10 12 24 := by
    rw [hls, visDegree_nil]
    norm_num
  rw [h1, h2, h3, hclamp]
  norm_num

/-- C7, amended. Each visible node's per-category radius is the clamped
affine function of its degree in the visible link set, with constants
(10, 0.8, 12, 24) for country and (7, 0.6, 9, 18) for discipline nodes;
the radius given to the collision force is that value plus the fixed
padding 4. -/
theorem nodeRadius_affine_clamped (g : GraphData) (p : FilterParams) (n : GraphNode)
    (_h : n ∈ (filterGraph g p).nodes) :
    (n.ty = NodeType.country →
        rCountry (filterGraph g p).links n.id
          = clamp (10 + (visDegree (filterGraph g p).links n.id : ℚ) * (4 / 5)) 12 24)
      ∧ (n.ty = NodeType.discipline →
        rDiscipline (filterGraph g p).links n.id
          = clamp (7 + (visDegree (filterGraph g p).links n.id : ℚ) * (3 / 5)) 9 18)
      ∧ collideRadius (filterGraph g p).links n
          = (match n.ty with
             | NodeType.country =>
                 clamp (10 + (visDegree (filterGraph g p).links n.id : ℚ) * (4 / 5)) 12 24
             | NodeType.discipline =>
                 clamp (7 + (visDegree (filterGraph g p).links n.id : ℚ) * (3 / 5)) 9 18) + 4 := by
  have hdeg := degLookup_degreeMap (filterGraph g p).links n.id
  refine ⟨fun _ => ?_, fun _ => ?_, ?_⟩
  · unfold rCountry
    rw [hdeg]
  · unfold rDiscipline
    rw [hdeg]
  · unfold collideRadius rCountry rDiscipline
    cases n.ty <;> simp only [] <;> rw [hdeg]

/-- Witness for the amended C7 at a concrete visible graph with one link. -/
theorem nodeRadius_affine_clamped_witness :
    cNodeA ∈ (filterGraph cGraphAB cParamsConn).nodes
      ∧ rCountry (filterGraph cGraphAB cParamsConn).links cNodeA.id
          = clamp (10 + (visDegree (filterGraph cGraphAB cParamsConn).links cNodeA.id : ℚ)
              * (4 / 5)) 12 24 :=
  ⟨by decide, (nodeRadius_affine_clamped cGraphAB cParamsConn cNodeA (by decide)).1 rfl⟩

/-! ## Simulation lemmas for C8 and C9 -/

theorem get?_updateAt_self (l : List α) (i : ℕ) (f : α → α) :
    (updateAt l i f).get? i = (l.get? i).map f := by
  induction l generalizing i with
  | nil => cases i <;> rfl
  | cons a rest ih =>
    cases i with
    | zero => rfl
    | succ n => exact ih n

theorem tickN_succ_comm (adecay vdecay : ℚ) (f : ℚ → List SimNodeM → List SimNodeM)
    (n : ℕ) (s : SimStateM) :
    tickN adecay vdecay f (n + 1) s = tick adecay vdecay f (tickN adecay vdecay f n s) := by
  induction n generalizing s with
  | zero => rfl
  | succ n ih =>
    show tickN adecay vdecay f (n + 1) (tick adecay vdecay f s) = _
    rw [ih]
    rfl

theorem tickN_alphaTarget (adecay vdecay : ℚ) (f : ℚ → List SimNodeM → List SimNodeM)
    (n : ℕ) (s : SimStateM) :
    (tickN adecay vdecay f n s).alphaTarget = s.alphaTarget := by
  induction n generalizing s with
  | zero => rfl
  | succ n ih => exact (ih _).trans rfl

theorem integrateNode_pinned (vdecay : ℚ) (orig upd : SimNodeM) (px py : ℚ)
    (hfx : orig.fx = some px) (hfy : orig.fy = some py) :
    integrateNode vdecay orig upd
      = { x := px, y := py, vx := 0, vy := 0, fx := some px, fy := some py } := by
  unfold integrateNode
  rw [hfx, hfy]

theorem tick_pinned (adecay vdecay : ℚ) (f : ℚ → List SimNodeM → List SimNodeM)
    (hlen : ∀ al ns, (f al ns).length = ns.length)
    (s : SimStateM) (i : ℕ) (d : SimNodeM) (px py : ℚ)
    (hd : s.nodes.get? i = some d) (hfx : d.fx = some px) (hfy : d.fy = some py) :
    (tick adecay vdecay f s).nodes.get? i
      = some { x := px, y := py, vx := 0, vy := 0, fx := some px, fy := some py } := by
  obtain ⟨hi, -⟩ := List.get?_eq_some.mp hd
  have hlt : i < (f (s.alpha + (s.alphaTarget - s.alpha) * adecay) s.nodes).length := by
    rw [hlen]
    exact hi
  obtain ⟨u, hu⟩ : ∃ u, (f (s.alpha + (s.alphaTarget - s.alpha) * adecay) s.nodes).get? i
      = some u := by
    cases h : (f (s.alpha + (s.alphaTarget - s.alpha) * adecay) s.nodes).get? i with
    | none => exact absurd (List.get?_eq_none.mp h) (Nat.not_le_of_lt hlt)
    | some u => exact ⟨u, rfl⟩
  show (List.zipWith (integrateNode vdecay) s.nodes
      (f (s.alpha + (s.alphaTarget - s.alpha) * adecay) s.nodes)).get? i = _
  rw [List.get?_zipWith', hd, hu]
  simp only [Option.map_some', Option.some_bind]
  rw [integrateNode_pinned vdecay d u px py hfx hfy]

/-! ## C8: a pinned node never moves; unpinning frees it -/

/-- C8. While a node's fixed position is held at `(px, py)`, any number
of ticks leaves it exactly at `(px, py)` (whatever the force pass does);
the drag `end` handler clears the pin to `null`; and once unpinned a
tick can move a node (shown by a concrete force). -/
theorem pinned_node_fixed (adecay vdecay : ℚ) (f : ℚ → List SimNodeM → List SimNodeM)
    (s : SimStateM) (i : ℕ) (d : SimNodeM) (px py : ℚ)
    (hlen : ∀ al ns, (f al ns).length = ns.length)
    (hd : s.nodes.get? i = some d)
    (hfx : d.fx = some px) (hfy : d.fy = some py)
    (hx : d.x = px) (hy : d.y = py) :
    (∀ n : ℕ, ∃ d' : SimNodeM,
        (tickN adecay vdecay f n s).nodes.get? i = some d'
          ∧ d'.x = px ∧ d'.y = py ∧ d'.fx = some px ∧ d'.fy = some py)
      ∧ (∀ active : Bool,
          ((onDragEnd active i s).nodes.get? i).map SimNodeM.fx = some none
            ∧ ((onDragEnd active i s).nodes.get? i).map SimNodeM.fy = some none)
      ∧ ((tick 0 1 (fun _ ns => ns.map (fun d => { d with vx := 1 }))
            { alpha := 0, alphaTarget := 0,
              nodes := [{ x := 0, y := 0, vx := 0, vy := 0,
                          fx := none, fy := none }] }).nodes.get? 0).map SimNodeM.x
          = some 1 := by
  refine ⟨?_, ?_, ?_⟩
  · have main : ∀ (n : ℕ) (s : SimStateM) (d : SimNodeM),
        s.nodes.get? i = some d → d.fx = some px → d.fy = some py →
        d.x = px → d.y = py →
        ∃ d' : SimNodeM,
          (tickN adecay vdecay f n s).nodes.get? i = some d'
            ∧ d'.x = px ∧ d'.y = py ∧ d'.fx = some px ∧ d'.fy = some py := by
      intro n
      induction n with
      | zero =>
        intro s d hd hfx hfy hx hy
        exact ⟨d, hd, hx, hy, hfx, hfy⟩
      | succ n ih =>
        intro s d hd hfx hfy hx hy
        exact ih (tick adecay vdecay f s) _
          (tick_pinned adecay vdecay f hlen s i d px py hd hfx hfy) rfl rfl rfl rfl
    intro n
    exact main n s d hd hfx hfy hx hy
  · intro active
    have hnodes : (onDragEnd active i s).nodes
        = updateAt s.nodes i (fun d => { d with fx := none, fy := none }) := by
      unfold onDragEnd
      cases active <;> rfl
    rw [hnodes, get?_updateAt_self, hd]
    exact ⟨rfl, rfl⟩
  · simp [tick, integrateNode]

/-- Witness for C8: a concrete pinned node stays at (5, 7) for 3 ticks. -/
theorem pinned_node_fixed_witness :
    ∃ d' : SimNodeM,
      (tickN (1 / 50) (3 / 5) (fun _ ns => ns) 3 cPinState).nodes.get? 0 = some d'
        ∧ d'.x = 5 ∧ d'.y = 7 ∧ d'.fx = some 5 ∧ d'.fy = some 7 :=
  (pinned_node_fixed (1 / 50) (3 / 5) (fun _ ns => ns) cPinState 0 cPinNode 5 7
    (fun _ _ => rfl) rfl rfl rfl rfl rfl).1 3

/-! ## C9: the energy schedule -/

/-- C9, counterexample. Starting a drag does NOT strictly increase the
energy, nor reset it to a fixed elevated value: with alpha = 1, the drag
`start` handler leaves alpha exactly at 1 (it only raises the target to
0.2), and the next tick strictly DECREASES alpha. -/
theorem dragStart_not_energy_reset :
    (onDragStart false 0 cSimS).alpha = cSimS.alpha
      ∧ (tick (1 / 50) (3 / 5) (fun _ ns => ns) (onDragStart false 0 cSimS)).alpha
          < cSimS.alpha := by
  refine ⟨rfl, ?_⟩
  show (1 : ℚ) + (1 / 5 - 1) * (1 / 50) < 1
  norm_num

theorem tickN_alpha_decay (adecay vdecay : ℚ) (f : ℚ → List SimNodeM → List SimNodeM) :
    ∀ (n : ℕ) (s : SimStateM), s.alphaTarget = 0 →
      (tickN adecay vdecay f n s).alpha = s.alpha * (1 - adecay) ^ n := by
  intro n
  induction n with
  | zero =>
    intro s _
    simp only [pow_zero, mul_one]
    rfl
  | succ n ih =>
    intro s ht
    have hstep : (tick adecay vdecay f s).alpha = s.alpha * (1 - adecay) := by
      show s.alpha + (s.alphaTarget - s.alpha) * adecay = _
      rw [ht]
      ring
    have htgt : (tick adecay vdecay f s).alphaTarget = 0 := ht
    calc (tickN adecay vdecay f (n + 1) s).alpha
        = (tickN adecay vdecay f n (tick adecay vdecay f s)).alpha := rfl
      _ = (tick adecay vdecay f s).alpha * (1 - adecay) ^ n := ih _ htgt
      _ = s.alpha * (1 - adecay) ^ (n + 1) := by rw [hstep]; ring

/-- C9, amended. Drag events move the energy *target*, not the energy:
with target 0 (no drag) the energy follows the geometric law
`alpha_n = alpha_0 * (1 - alphaDecay)^n` and decays monotonically;
starting a drag leaves alpha unchanged and sets the target to 0.2, after
which a tick strictly increases alpha whenever it is below 0.2; ending a
drag leaves alpha unchanged and sets the target back to 0, resuming the
natural decay. -/
theorem energy_schedule (adecay vdecay : ℚ) (f : ℚ → List SimNodeM → List SimNodeM)
    (s : SimStateM) (i : ℕ) (h0 : 0 ≤ adecay) (h1 : adecay ≤ 1) :
    (s.alphaTarget = 0 →
        (∀ n : ℕ, (tickN adecay vdecay f n s).alpha = s.alpha * (1 - adecay) ^ n)
          ∧ (0 ≤ s.alpha → ∀ n : ℕ,
              (tickN adecay vdecay f (n + 1) s).alpha ≤ (tickN adecay vdecay f n s).alpha))
      ∧ ((onDragStart false i s).alpha = s.alpha
          ∧ (onDragStart false i s).alphaTarget = 1 / 5)
      ∧ (s.alphaTarget = 1 / 5 → s.alpha < 1 / 5 → 0 < adecay →
          s.alpha < (tick adecay vdecay f s).alpha)
      ∧ ((onDragEnd false i s).alpha = s.alpha
          ∧ (onDragEnd false i s).alphaTarget = 0) := by
  refine ⟨fun ht => ⟨fun n => tickN_alpha_decay adecay vdecay f n s ht, fun ha n => ?_⟩,
    ⟨rfl, rfl⟩, fun ht hlt hpos => ?_, ⟨rfl, rfl⟩⟩
  · rw [tickN_alpha_decay adecay vdecay f (n + 1) s ht,
      tickN_alpha_decay adecay vdecay f n s ht]
    have hb : (0 : ℚ) ≤ 1 - adecay := by linarith
    have hp : (0 : ℚ) ≤ (1 - adecay) ^ n := pow_nonneg hb n
    rw [pow_succ]
    nlinarith [mul_nonneg (mul_nonneg ha hp) h0]
  · have hstep : (tick adecay vdecay f s).alpha
        = s.alpha + (s.alphaTarget - s.alpha) * adecay := rfl
    rw [hstep, ht]
    nlinarith [mul_pos (by linarith : (0 : ℚ) < 1 / 5 - s.alpha) hpos]

/-- Witness for the amended C9: the geometric decay law at one concrete
tick from alpha = 1 with target 0. -/
theorem energy_schedule_witness :
    (0 : ℚ) ≤ 1 / 50 ∧ (1 : ℚ) / 50 ≤ 1
      ∧ (tickN (1 / 50) (3 / 5) (fun _ ns => ns) 1 cSimS).alpha
          = cSimS.alpha * (1 - 1 / 50) ^ 1 :=
  ⟨by norm_num, by norm_num,
    ((energy_schedule (1 / 50) (3 / 5) (fun _ ns => ns) cSimS 0
        (by norm_num) (by norm_num)).1 rfl).1 1⟩

/-! ## Lemmas about `uniqFirst` and `splitOnBar` -/

theorem mem_uniqFirstAux (l : List Str) :
    ∀ (seen : List Str) (x : Str), x ∈ uniqFirstAux seen l ↔ x ∈ l ∧ x ∉ seen := by
  induction l with
  | nil => intro seen x; simp [uniqFirstAux]
  | cons a xs ih =>
    intro seen x
    unfold uniqFirstAux
    by_cases ha : a ∈ seen
    · rw [if_pos ha, ih seen x, List.mem_cons]
      constructor
      · exact fun h => ⟨Or.inr h.1, h.2⟩
      · rintro ⟨ha2 | hxs, hns⟩
        · exact absurd (ha2 ▸ ha) hns
        · exact ⟨hxs, hns⟩
    · rw [if_neg ha, List.mem_cons, List.mem_cons, ih (a :: seen) x, List.mem_cons]
      by_cases hx : x = a
      · subst hx
        simp [ha]
      · simp only [hx, false_or]

theorem mem_uniqFirst (l : List Str) (x : Str) : x ∈ uniqFirst l ↔ x ∈ l := by
  unfold uniqFirst
  rw [mem_uniqFirstAux]
  simp

theorem uniqFirstAux_nodup (l : List Str) : ∀ seen : List Str, (uniqFirstAux seen l).Nodup := by
  induction l with
  | nil => intro seen; exact List.nodup_nil
  | cons a xs ih =>
    intro seen
    unfold uniqFirstAux
    by_cases ha : a ∈ seen
    · rw [if_pos ha]
      exact ih seen
    · rw [if_neg ha]
      refine List.Nodup.cons ?_ (ih (a :: seen))
      intro hmem
      exact ((mem_uniqFirstAux xs (a :: seen) a).mp hmem).2 (List.mem_cons_self _ _)

theorem uniqFirst_nodup (l : List Str) : (uniqFirst l).Nodup :=
  uniqFirstAux_nodup l []

theorem uniqFirst_eq_nil_iff (l : List Str) : uniqFirst l = [] ↔ l = [] := by
  cases l with
  | nil => rfl
  | cons a xs =>
    unfold uniqFirst uniqFirstAux
    simp

theorem splitOnBar_ne_nil (s : Str) : splitOnBar s ≠ [] := by
  cases s with
  | nil => simp [splitOnBar]
  | cons c cs =>
    unfold splitOnBar
    by_cases h : c = '|'
    · simp [h]
    · simp only [if_neg h]
      cases splitOnBar cs <;> simp

theorem splitOnBar_barFree (s : Str) (h : barFree s) : splitOnBar s = [s] := by
  induction s with
  | nil => rfl
  | cons c cs ih =>
    have hc : ¬ (c = '|') := by
      intro hc
      exact h (by rw [hc]; exact List.mem_cons_self _ _)
    have hcs : barFree cs := fun hm => h (List.mem_cons_of_mem _ hm)
    unfold splitOnBar
    rw [if_neg hc, ih hcs]

theorem splitOnBar_append_bar (s r : Str) (h : barFree s) :
    splitOnBar (s ++ '|' :: r) = s :: splitOnBar r := by
  induction s with
  | nil =>
    show splitOnBar ('|' :: r) = [] :: splitOnBar r
    conv_lhs => unfold splitOnBar
    rw [if_pos rfl]
  | cons c cs ih =>
    have hc : ¬ (c = '|') := by
      intro hc
      exact h (by rw [hc]; exact List.mem_cons_self _ _)
    have hcs : barFree cs := fun hm => h (List.mem_cons_of_mem _ hm)
    show splitOnBar (c :: (cs ++ '|' :: r)) = (c :: cs) :: splitOnBar r
    conv_lhs => unfold splitOnBar
    rw [if_neg hc, ih hcs]

theorem splitOnBar_three (s t u : Str) (hs : barFree s) (ht : barFree t) (hu : barFree u) :
    splitOnBar (s ++ '|' :: t ++ '|' :: u) = [s, t, u] := by
  rw [List.append_assoc, List.cons_append, splitOnBar_append_bar _ _ hs,
    splitOnBar_append_bar _ _ ht, splitOnBar_barFree _ hu]

theorem splitOnBar_recKey (m : Medal) (hc : barFree m.country) (hd : barFree m.discipline)
    (hm : barFree m.medal_type) :
    splitOnBar (recKey m) = [m.country, m.discipline, m.medal_type] :=
  splitOnBar_three _ _ _ hc hd hm

theorem recKey_eq_iff (m : Medal) (s t u : Str)
    (hmc : barFree m.country) (hmd : barFree m.discipline) (hmm : barFree m.medal_type)
    (hs : barFree s) (ht : barFree t) (hu : barFree u) :
    recKey m = s ++ '|' :: t ++ '|' :: u
      ↔ (m.country = s ∧ m.discipline = t ∧ m.medal_type = u) := by
  constructor
  · intro h
    have h2 := congrArg splitOnBar h
    rw [splitOnBar_recKey m hmc hmd hmm, splitOnBar_three s t u hs ht hu] at h2
    simp only [List.cons.injEq, and_true] at h2
    exact ⟨h2.1, h2.2.1, h2.2.2⟩
  · rintro ⟨h1, h2, h3⟩
    unfold recKey
    rw [h1, h2, h3]

theorem barFree_mem_splitOnBar (s : Str) : ∀ w ∈ splitOnBar s, barFree w := by
  induction s with
  | nil =>
    intro w hw
    simp only [splitOnBar, List.mem_singleton] at hw
    subst hw
    intro hm
    simp at hm
  | cons c cs ih =>
    intro w hw
    unfold splitOnBar at hw
    by_cases h : c = '|'
    · rw [if_pos h] at hw
      rcases List.mem_cons.mp hw with rfl | hw2
      · intro hm; simp at hm
      · exact ih w hw2
    · rw [if_neg h] at hw
      cases hsp : splitOnBar cs with
      | nil => exact absurd hsp (splitOnBar_ne_nil cs)
      | cons w0 ws =>
        rw [hsp] at hw
        rcases List.mem_cons.mp hw with rfl | hw2
        · have h0 : barFree w0 := ih w0 (by rw [hsp]; exact List.mem_cons_self _ _)
          intro hm
          rcases List.mem_cons.mp hm with h1 | h1
          · exact h h1.symm
          · exact h0 h1
        · exact ih w (by rw [hsp]; exact List.mem_cons_of_mem _ hw2)

theorem barFree_getD_splitOnBar (s : Str) (i : ℕ) : barFree ((splitOnBar s).getD i []) := by
  rcases Nat.lt_or_ge i (splitOnBar s).length with hlt | hge
  · rw [List.getD_eq_getElem _ _ hlt]
    exact barFree_mem_splitOnBar s _ (List.getElem_mem hlt)
  · rw [List.getD_eq_default _ _ hge]
    intro hm
    simp at hm

/-! ## C2: empty input produces no error, only an empty graph -/

/-- C2, counterexample. `build` raises no `EmptyInputError` on the empty
record sequence: it is a total function and returns the ordinary empty
graph, which the caller's `nodes.length > 0` guard simply does not
render. -/
theorem build_empty_no_error :
    build [] = { nodes := [], links := [] } ∧ shouldRenderGraph (build []) = false := by
  decide

/-- C2, amended. `build` never fails: on the empty record sequence it
returns the empty graph and the caller's guard shows a placeholder
instead of the graph ("no graph to render", not a crash); on every
non-empty record sequence the node list is non-empty and the graph
renders. -/
theorem build_never_fails (records : List Medal) (h : records ≠ []) :
    (build []).nodes = [] ∧ (build []).links = []
      ∧ shouldRenderGraph (build []) = false
      ∧ (build records).nodes ≠ []
      ∧ shouldRenderGraph (build records) = true := by
  obtain ⟨m, rs, rfl⟩ := List.exists_cons_of_ne_nil h
  have hne : (build (m :: rs)).nodes ≠ [] := by
    unfold build
    simp only [List.map_cons]
    intro hcontra
    rw [List.append_eq_nil] at hcontra
    have h1 := hcontra.1
    rw [List.map_eq_nil_iff] at h1
    rw [uniqFirst_eq_nil_iff] at h1
    exact List.cons_ne_nil _ _ h1
  refine ⟨by decide, by decide, by decide, hne, ?_⟩
  unfold shouldRenderGraph
  simp only [decide_eq_true_eq]
  exact List.length_pos.mpr hne

/-- Witness for the amended C2 at a one-record input. -/
theorem build_never_fails_witness :
    ([cSameIdMedal] : List Medal) ≠ [] ∧ shouldRenderGraph (build [cSameIdMedal]) = true :=
  ⟨by decide, (build_never_fails [cSameIdMedal] (by decide)).2.2.2.2⟩

/-! ## Keys of the linkMap (for C1 and C3) -/

theorem mem_keys_linkMapInsert (map : List (Str × LinkVal)) (m : Medal) (k : Str) :
    k ∈ (linkMapInsert map m).map Prod.fst ↔ k ∈ map.map Prod.fst ∨ k = recKey m := by
  induction map with
  | nil => simp [linkMapInsert]
  | cons e rest ih =>
    obtain ⟨k', v⟩ := e
    unfold linkMapInsert
    by_cases h : k' = recKey m
    · rw [if_pos h]
      simp only [List.map_cons, List.mem_cons]
      constructor
      · exact fun hc => Or.inl hc
      · rintro (hc | hc)
        · exact hc
        · exact Or.inl (hc.trans h.symm)
    · rw [if_neg h]
      simp only [List.map_cons, List.mem_cons, ih]
      tauto

theorem mem_keys_foldl (records : List Medal) :
    ∀ (acc : List (Str × LinkVal)) (k : Str),
      k ∈ (records.foldl linkMapInsert acc).map Prod.fst
        ↔ k ∈ acc.map Prod.fst ∨ ∃ m ∈ records, k = recKey m := by
  induction records with
  | nil =>
    intro acc k
    rw [List.foldl_nil]
    constructor
    · exact fun h => Or.inl h
    · rintro (h | ⟨m, hm, -⟩)
      · exact h
      · exact absurd hm (List.not_mem_nil m)
  | cons m rs ih =>
    intro acc k
    rw [List.foldl_cons, ih, mem_keys_linkMapInsert, List.exists_mem_cons_iff]
    tauto

theorem exists_recKey_of_mem_buildLinkMap (records : List Medal) (e : Str × LinkVal)
    (he : e ∈ buildLinkMap records) : ∃ m ∈ records, e.1 = recKey m := by
  have hk : e.1 ∈ (buildLinkMap records).map Prod.fst := List.mem_map_of_mem _ he
  have h2 := (mem_keys_foldl records [] e.1).mp hk
  rcases h2 with h3 | h3
  · simp at h3
  · exact h3

/-! ## C3: node-id uniqueness and edge endpoints -/

/-- C3, counterexample. A record whose country name equals its
discipline name yields two nodes with the same id, so node ids are NOT
unique across the two partitions. -/
theorem build_node_ids_not_unique :
    ¬ (((build [cSameIdMedal]).nodes.map GraphNode.id).Nodup) := by
  decide

theorem map_id_of_mk (l : List Str) (ty : NodeType) :
    ((l.map (fun c => ({ id := c, ty := ty } : GraphNode))).map GraphNode.id) = l := by
  induction l with
  | nil => rfl
  | cons a l ih => simp [ih]

/-- C3, amended. Node ids are unique within each partition (countries,
disciplines, unconditionally); they are unique across the whole node
list provided no country name equals a discipline name; and, only for
the endpoint clause, provided the record fields are free of the `'|'`
delimiter, every link's source is the id of a country node and every
link's target the id of a discipline node of the same graph. -/
theorem build_graph_invariants (records : List Medal) :
    ((((build records).nodes.filter (fun n => decide (n.ty = NodeType.country))).map
        GraphNode.id).Nodup
      ∧ (((build records).nodes.filter (fun n => decide (n.ty = NodeType.discipline))).map
          GraphNode.id).Nodup)
      ∧ ((∀ c ∈ records.map (fun m => m.country), ∀ d ∈ records.map (fun m => m.discipline),
            c ≠ d) →
          ((build records).nodes.map GraphNode.id).Nodup)
      ∧ ((∀ m ∈ records, barFree m.country ∧ barFree m.discipline ∧ barFree m.medal_type) →
          ∀ e ∈ (build records).links,
            (∃ n ∈ (build records).nodes, n.id = e.source ∧ n.ty = NodeType.country)
              ∧ (∃ n ∈ (build records).nodes, n.id = e.target ∧ n.ty = NodeType.discipline)) := by
  have hnodes : (build records).nodes
      = (uniqFirst (records.map (fun m => m.country))).map
          (fun c => ({ id := c, ty := NodeType.country } : GraphNode))
        ++ (uniqFirst (records.map (fun m => m.discipline))).map
            (fun d => ({ id := d, ty := NodeType.discipline } : GraphNode)) := rfl
  refine ⟨⟨?_, ?_⟩, ?_, ?_⟩
  · rw [hnodes, List.filter_append,
      List.filter_eq_self.mpr (by
        intro n hn
        obtain ⟨c, _, rfl⟩ := List.mem_map.mp hn
        simp),
      List.filter_eq_nil_iff.mpr (by
        intro n hn
        obtain ⟨d, _, rfl⟩ := List.mem_map.mp hn
        simp),
      List.append_nil, map_id_of_mk]
    exact uniqFirst_nodup _
  · rw [hnodes, List.filter_append,
      List.filter_eq_nil_iff.mpr (by
        intro n hn
        obtain ⟨c, _, rfl⟩ := List.mem_map.mp hn
        simp),
      List.filter_eq_self.mpr (by
        intro n hn
        obtain ⟨d, _, rfl⟩ := List.mem_map.mp hn
        simp),
      List.nil_append, map_id_of_mk]
    exact uniqFirst_nodup _
  · intro hdisj
    rw [hnodes, List.map_append, map_id_of_mk, map_id_of_mk]
    refine List.Nodup.append (uniqFirst_nodup _) (uniqFirst_nodup _) ?_
    intro a haC haD
    exact hdisj a ((mem_uniqFirst _ a).mp haC) a ((mem_uniqFirst _ a).mp haD) rfl
  · intro hbf e he
    have he2 : e ∈ (buildLinkMap records).map mkLink := he
    obtain ⟨ent, hent, rfl⟩ := List.mem_map.mp he2
    obtain ⟨m, hm, hkey⟩ := exists_recKey_of_mem_buildLinkMap records ent hent
    obtain ⟨hbc, hbd, hbm⟩ := hbf m hm
    have hsplit : splitOnBar ent.1 = [m.country, m.discipline, m.medal_type] := by
      rw [hkey]
      exact splitOnBar_recKey m hbc hbd hbm
    have hsource : (mkLink ent).source = m.country := by
      show (splitOnBar ent.1).getD 0 [] = m.country
      rw [hsplit]
      rfl
    have htarget : (mkLink ent).target = m.discipline := by
      show (splitOnBar ent.1).getD 1 [] = m.discipline
      rw [hsplit]
      rfl
    constructor
    · refine ⟨{ id := m.country, ty := NodeType.country }, ?_, hsource.symm, rfl⟩
      rw [hnodes]
      exact List.mem_append_left _
        (List.mem_map_of_mem _ ((mem_uniqFirst _ _).mpr (List.mem_map_of_mem _ hm)))
    · refine ⟨{ id := m.discipline, ty := NodeType.discipline }, ?_, htarget.symm, rfl⟩
      rw [hnodes]
      exact List.mem_append_right _
        (List.mem_map_of_mem _ ((mem_uniqFirst _ _).mpr (List.mem_map_of_mem _ hm)))

/-- Witness for the amended C3 at a one-record input with distinct,
delimiter-free names: the disjointness and delimiter-free side
conditions hold there, and the theorem yields whole-list id uniqueness
and endpoint validity. -/
theorem build_graph_invariants_witness :
    (∀ c ∈ ([cCleanMedal] : List Medal).map (fun m => m.country),
        ∀ d ∈ ([cCleanMedal] : List Medal).map (fun m => m.discipline), c ≠ d)
      ∧ (∀ m ∈ ([cCleanMedal] : List Medal),
          barFree m.country ∧ barFree m.discipline ∧ barFree m.medal_type)
      ∧ ((build [cCleanMedal]).nodes.map GraphNode.id).Nodup
      ∧ (∀ e ∈ (build [cCleanMedal]).links,
          (∃ n ∈ (build [cCleanMedal]).nodes, n.id = e.source ∧ n.ty = NodeType.country)
            ∧ (∃ n ∈ (build [cCleanMedal]).nodes, n.id = e.target ∧ n.ty = NodeType.discipline)) :=
  ⟨by decide, by decide,
    (build_graph_invariants [cCleanMedal]).2.1 (by decide),
    (build_graph_invariants [cCleanMedal]).2.2 (by decide)⟩

/-! ## C1: grouping by the (source, target, label) triple -/

theorem lmLookup_nil (k : Str) : lmLookup [] k = none := rfl

theorem lmLookup_cons (k' : Str) (v : LinkVal) (rest : List (Str × LinkVal)) (k : Str) :
    lmLookup ((k', v) :: rest) k = if k' = k then some v else lmLookup rest k := by
  unfold lmLookup
  by_cases h : k' = k
  · rw [List.find?_cons_of_pos _ (by simpa using h)]
    simp [h]
  · rw [List.find?_cons_of_neg _ (by simpa using h)]
    simp [h]

theorem lmLookup_linkMapInsert (map : List (Str × LinkVal)) (m : Medal) (k : Str) :
    lmLookup (linkMapInsert map m) k
      = if recKey m = k then absorb (lmLookup map k) m else lmLookup map k := by
  induction map with
  | nil =>
    unfold linkMapInsert
    rw [lmLookup_cons, lmLookup_nil]
    by_cases h : recKey m = k <;> simp [h, absorb]
  | cons e rest ih =>
    obtain ⟨k', v⟩ := e
    unfold linkMapInsert
    by_cases h : k' = recKey m
    · rw [if_pos h, lmLookup_cons, lmLookup_cons]
      by_cases h2 : k' = k
      · rw [if_pos h2, if_pos h2, if_pos (h.symm.trans h2)]
        rfl
      · rw [if_neg h2, if_neg h2, if_neg (fun hk => h2 (h.trans hk))]
    · rw [if_neg h, lmLookup_cons, lmLookup_cons]
      by_cases h2 : k' = k
      · rw [if_pos h2, if_pos h2, if_neg (fun hk => h (h2.trans hk.symm))]
      · rw [if_neg h2, if_neg h2, ih]

theorem lmLookup_foldl (records : List Medal) :
    ∀ (acc : List (Str × LinkVal)) (k : Str),
      lmLookup (records.foldl linkMapInsert acc) k
        = (records.filter (fun m => decide (recKey m = k))).foldl absorb (lmLookup acc k) := by
  induction records with
  | nil =>
    intro acc k
    rw [List.foldl_nil, List.filter_nil, List.foldl_nil]
  | cons m rs ih =>
    intro acc k
    rw [List.foldl_cons, ih, lmLookup_linkMapInsert, List.filter_cons]
    by_cases h : recKey m = k
    · rw [if_pos h, if_pos (decide_eq_true h), List.foldl_cons]
    · rw [if_neg h, if_neg (by simpa using h)]

theorem foldl_absorb_some (ms : List Medal) :
    ∀ v : LinkVal,
      ms.foldl absorb (some v)
        = some { count := v.count + ms.length
               , athlete := v.athlete ++ ms.map (fun m => m.name)
               , event := v.event ++ ms.map (fun m => m.event)
               , medal := v.medal } := by
  induction ms with
  | nil =>
    intro v
    simp
  | cons m ms ih =>
    intro v
    rw [List.foldl_cons]
    show ms.foldl absorb (some (bumpVal v m)) = _
    rw [ih (bumpVal v m)]
    simp only [bumpVal, List.map_cons, List.length_cons, List.append_assoc,
      List.singleton_append, Option.some.injEq, LinkVal.mk.injEq, and_true, true_and]
    omega

theorem foldl_absorb_none (m : Medal) (ms : List Medal) :
    (m :: ms).foldl absorb none
      = some { count := ms.length + 1
             , athlete := (m :: ms).map (fun x => x.name)
             , event := (m :: ms).map (fun x => x.event)
             , medal := m.medal_type } := by
  rw [List.foldl_cons]
  show ms.foldl absorb (some (initVal m)) = _
  rw [foldl_absorb_some]
  simp only [initVal, List.map_cons, Option.some.injEq, LinkVal.mk.injEq,
    List.singleton_append, and_true, true_and]
  omega

theorem lmLookup_buildLinkMap (records : List Medal) (k : Str) :
    lmLookup (buildLinkMap records) k
      = match records.filter (fun m => decide (recKey m = k)) with
        | [] => none
        | m :: ms =>
            some { count := ms.length + 1
                 , athlete := (m :: ms).map (fun x => x.name)
                 , event := (m :: ms).map (fun x => x.event)
                 , medal := m.medal_type } := by
  unfold buildLinkMap
  rw [lmLookup_foldl records [] k, lmLookup_nil]
  cases h : records.filter (fun m => decide (recKey m = k)) with
  | nil => rfl
  | cons m ms => exact foldl_absorb_none m ms

theorem nodup_keys_linkMapInsert (map : List (Str × LinkVal)) (m : Medal)
    (h : (map.map Prod.fst).Nodup) :
    ((linkMapInsert map m).map Prod.fst).Nodup := by
  induction map with
  | nil => simp [linkMapInsert]
  | cons e rest ih =>
    obtain ⟨k', v⟩ := e
    unfold linkMapInsert
    by_cases hk : k' = recKey m
    · rw [if_pos hk]
      exact h
    · rw [if_neg hk]
      rw [List.map_cons, List.nodup_cons] at h ⊢
      refine ⟨?_, ih h.2⟩
      intro hmem
      rw [mem_keys_linkMapInsert] at hmem
      rcases hmem with h2 | h2
      · exact h.1 h2
      · exact hk h2

theorem nodup_keys_buildLinkMap (records : List Medal) :
    ((buildLinkMap records).map Prod.fst).Nodup := by
  suffices main : ∀ (rs : List Medal) (acc : List (Str × LinkVal)),
      (acc.map Prod.fst).Nodup → ((rs.foldl linkMapInsert acc).map Prod.fst).Nodup by
    exact main records [] (by simp)
  intro rs
  induction rs with
  | nil =>
    intro acc h
    exact h
  | cons m rs2 ih =>
    intro acc h
    rw [List.foldl_cons]
    exact ih _ (nodup_keys_linkMapInsert acc m h)

theorem filter_key_of_nodup (map : List (Str × LinkVal)) (K : Str)
    (hnd : (map.map Prod.fst).Nodup) :
    map.filter (fun e => decide (e.1 = K))
      = match lmLookup map K with
        | some v => [(K, v)]
        | none => [] := by
  induction map with
  | nil => rfl
  | cons e rest ih =>
    obtain ⟨k', v⟩ := e
    rw [List.map_cons, List.nodup_cons] at hnd
    rw [List.filter_cons, lmLookup_cons]
    by_cases h : k' = K
    · subst h
      rw [if_pos (decide_eq_true rfl), if_pos rfl]
      have hrest : rest.filter (fun e => decide (e.1 = k')) = [] := by
        rw [List.filter_eq_nil_iff]
        intro a ha
        simp only [decide_eq_true_eq]
        intro hk
        exact hnd.1 (List.mem_map.mpr ⟨a, ha, hk⟩)
      rw [hrest]
    · rw [if_neg (by simpa using h), if_neg h]
      exact ih hnd.2

/-- C1, counterexample. The grouping key is the string
`country + "|" + discipline + "|" + medal_type`, re-split on `"|"`, so a
country containing `'|'` is torn apart: the single record with country
"A|B", discipline "C", label "L" yields NO edge with that triple (the
built edge is (A, B, C)), and its weight sum 0 differs from the record
count 1. -/
theorem build_not_grouping_by_triple :
    ((tripleLinks (build [cBarMedal]) ['A', '|', 'B'] ['C'] ['L']).map
        (fun e => e.count.getD 0)).sum
      ≠ (tripleRecords [cBarMedal] ['A', '|', 'B'] ['C'] ['L']).length := by
  decide

/-- C1, amended. Provided no record field contains the `'|'` delimiter,
`build` groups records exactly by the (source, target, label) triple:
for every triple, the edge weights with that triple sum to the number of
matching records, and when at least one record matches there is exactly
one such edge, its weight is the group size, and its athlete/event
attributes are the `", "`-joins of the group members' detail fields in
input order. -/
theorem build_groups_by_triple (records : List Medal)
    (hbf : ∀ m ∈ records, barFree m.country ∧ barFree m.discipline ∧ barFree m.medal_type)
    (s t l : Str) :
    ((tripleLinks (build records) s t l).map (fun e => e.count.getD 0)).sum
        = (tripleRecords records s t l).length
      ∧ (tripleRecords records s t l ≠ [] →
          ∃ e : GraphLink,
            tripleLinks (build records) s t l = [e]
              ∧ e.count = some (tripleRecords records s t l).length
              ∧ e.athlete = joinComma ((tripleRecords records s t l).map (fun m => m.name))
              ∧ e.event = joinComma ((tripleRecords records s t l).map (fun m => m.event))) := by
  by_cases hb : barFree s ∧ barFree t ∧ barFree l
  · obtain ⟨hs, ht, hl⟩ := hb
    have htl : tripleLinks (build records) s t l
        = ((buildLinkMap records).filter
            (fun e => decide (e.1 = s ++ '|' :: t ++ '|' :: l))).map mkLink := by
      unfold tripleLinks
      show (((buildLinkMap records).map mkLink).filter _) = _
      rw [List.filter_map]
      congr 1
      apply List.filter_congr
      intro ent hent
      obtain ⟨m, hm, hkey⟩ := exists_recKey_of_mem_buildLinkMap records ent hent
      obtain ⟨hbc, hbd, hbm⟩ := hbf m hm
      have hsplit : splitOnBar ent.1 = [m.country, m.discipline, m.medal_type] := by
        rw [hkey]
        exact splitOnBar_recKey m hbc hbd hbm
      have hsource : (mkLink ent).source = m.country := by
        show (splitOnBar ent.1).getD 0 [] = m.country
        rw [hsplit]
        rfl
      have htarget : (mkLink ent).target = m.discipline := by
        show (splitOnBar ent.1).getD 1 [] = m.discipline
        rw [hsplit]
        rfl
      have hmedal : (mkLink ent).medal = m.medal_type := by
        show (splitOnBar ent.1).getD 2 [] = m.medal_type
        rw [hsplit]
        rfl
      simp only [Function.comp_apply]
      rw [hsource, htarget, hmedal, hkey]
      exact decide_eq_decide.mpr (recKey_eq_iff m s t l hbc hbd hbm hs ht hl).symm
    have hfk := filter_key_of_nodup (buildLinkMap records) (s ++ '|' :: t ++ '|' :: l)
      (nodup_keys_buildLinkMap records)
    have hlm := lmLookup_buildLinkMap records (s ++ '|' :: t ++ '|' :: l)
    have hrc : records.filter (fun m => decide (recKey m = s ++ '|' :: t ++ '|' :: l))
        = tripleRecords records s t l := by
      unfold tripleRecords
      apply List.filter_congr
      intro m hm
      obtain ⟨hbc, hbd, hbm⟩ := hbf m hm
      exact decide_eq_decide.mpr (recKey_eq_iff m s t l hbc hbd hbm hs ht hl)
    rw [hrc] at hlm
    cases hcase : tripleRecords records s t l with
    | nil =>
      have hnone : lmLookup (buildLinkMap records) (s ++ '|' :: t ++ '|' :: l) = none := by
        rw [hlm, hcase]
      have hempty : tripleLinks (build records) s t l = [] := by
        rw [htl, hfk, hnone]
        rfl
      constructor
      · rw [hempty]
        rfl
      · intro hne
        exact absurd rfl hne
    | cons m0 ms =>
      have hsome : lmLookup (buildLinkMap records) (s ++ '|' :: t ++ '|' :: l)
          = some { count := ms.length + 1
                 , athlete := (m0 :: ms).map (fun x => x.name)
                 , event := (m0 :: ms).map (fun x => x.event)
                 , medal := m0.medal_type } := by
        rw [hlm, hcase]
      have hone : tripleLinks (build records) s t l
          = [mkLink (s ++ '|' :: t ++ '|' :: l,
              { count := ms.length + 1
              , athlete := (m0 :: ms).map (fun x => x.name)
              , event := (m0 :: ms).map (fun x => x.event)
              , medal := m0.medal_type })] := by
        rw [htl, hfk, hsome]
        rfl
      refine ⟨?_, fun _ => ⟨_, hone, ?_, ?_, ?_⟩⟩
      · rw [hone]
        rfl
      · rfl
      · rfl
      · rfl
  · have hrecs : tripleRecords records s t l = [] := by
      unfold tripleRecords
      rw [List.filter_eq_nil_iff]
      intro m hm
      simp only [decide_eq_true_eq]
      rintro ⟨h1, h2, h3⟩
      obtain ⟨hbc, hbd, hbm⟩ := hbf m hm
      exact hb ⟨h1 ▸ hbc, h2 ▸ hbd, h3 ▸ hbm⟩
    have hlinks : tripleLinks (build records) s t l = [] := by
      unfold tripleLinks
      rw [List.filter_eq_nil_iff]
      intro e he
      simp only [decide_eq_true_eq]
      rintro ⟨h1, h2, h3⟩
      have he2 : e ∈ (buildLinkMap records).map mkLink := he
      obtain ⟨ent, hent, rfl⟩ := List.mem_map.mp he2
      have hb1 : barFree (mkLink ent).source := barFree_getD_splitOnBar ent.1 0
      have hb2 : barFree (mkLink ent).target := barFree_getD_splitOnBar ent.1 1
      have hb3 : barFree (mkLink ent).medal := barFree_getD_splitOnBar ent.1 2
      exact hb ⟨h1 ▸ hb1, h2 ▸ hb2, h3 ▸ hb3⟩
    constructor
    · rw [hlinks, hrecs]
      rfl
    · intro hne
      exact absurd hrecs hne

/-- Witness for the amended C1: two delimiter-free records with the same
triple produce weights summing to 2. -/
theorem build_groups_by_triple_witness :
    (∀ m ∈ ([cM1, cM2] : List Medal),
        barFree m.country ∧ barFree m.discipline ∧ barFree m.medal_type)
      ∧ ((tripleLinks (build [cM1, cM2]) ['C'] ['D'] ['G']).map
            (fun e => e.count.getD 0)).sum
          = (tripleRecords [cM1, cM2] ['C'] ['D'] ['G']).length :=
  ⟨by decide, (build_groups_by_triple [cM1, cM2] (by decide) ['C'] ['D'] ['G']).1⟩
